import Mathlib

/-!
Verification of the wikibias aggregation-and-patch pipeline.

Python strings are modelled as lists of characters (`Str`); Python's
insertion-ordered `dict` is modelled as an association list on which
assignment (`dictInsert`) replaces the value in place when the key is
present and appends otherwise, and lookup (`dictGet`) returns the first
entry with the key.  All definitions are transcribed from the repository
sources `src/semantic.py`, `src/utils/wiki_parsing.py` and `src/main.py`.
-/

set_option autoImplicit false

/-- Model of a Python string: a list of characters. -/
abbrev Str := List Char

/-- Model of Python `str.lower()` (character-wise lowercasing; the
sources only apply it to ASCII text). -/
def pyLower (s : Str) : Str := s.map Char.toLower

/-- Model of Python `str.strip()`: remove leading and trailing whitespace. -/
def pyStrip (s : Str) : Str :=
  ((s.dropWhile Char.isWhitespace).reverse.dropWhile Char.isWhitespace).reverse

/-- Model of Python `haystack.find(pattern)`: index of the first occurrence
of `pattern` in `haystack`, or `none` where Python returns `-1`. -/
def strFind : Str → Str → Option Nat
  | [], pat => if pat = [] then some 0 else none
  | s@(_ :: t), pat =>
    if pat.isPrefixOf s then some 0 else (strFind t pat).map (· + 1)

/-- Model of Python `text.split(sep)` specialised to the separator
`"\n\n"` used by `ContentProcessor.chunk_content`: scan left to right,
cutting at each non-overlapping occurrence of two consecutive newlines.
The first argument accumulates the current piece in reverse. -/
def splitPPAux : Str → Str → List Str
  | acc, [] => [acc.reverse]
  | acc, '\n' :: '\n' :: t => acc.reverse :: splitPPAux [] t
  | acc, c :: t => splitPPAux (c :: acc) t

/-- Model of Python `text.split("\n\n")`. -/
def splitPP (s : Str) : List Str := splitPPAux [] s

/-- Model of Python `"\n\n".join(blocks)`. -/
def joinPP (blocks : List Str) : Str := List.intercalate ['\n', '\n'] blocks

section Dict

variable {β : Type}

/-- Lookup in the model of a Python dict: first entry with the key. -/
def dictGet : List (Str × β) → Str → Option β
  | [], _ => none
  | (k, v) :: t, key => if k = key then some v else dictGet t key

/-- Assignment `d[key] = v` in the model of a Python dict: replace the
value in place when the key is present, append a new entry otherwise
(Python dicts keep the original insertion position on overwrite). -/
def dictInsert : List (Str × β) → Str → β → List (Str × β)
  | [], key, v => [(key, v)]
  | (k, w) :: t, key, v =>
    if k = key then (key, v) :: t else (k, w) :: dictInsert t key v

theorem dictGet_dictInsert (m : List (Str × β)) (k key : Str) (v : β) :
    dictGet (dictInsert m k v) key = if key = k then some v else dictGet m key := by
  induction m with
  | nil =>
    by_cases h : key = k
    · subst h; simp [dictInsert, dictGet]
    · simp [dictInsert, dictGet, h, Ne.symm h]
  | cons p t ih =>
    obtain ⟨a, w⟩ := p
    by_cases h1 : a = k
    · subst h1
      by_cases h2 : key = a
      · subst h2; simp [dictInsert, dictGet]
      · simp [dictInsert, dictGet, h2, Ne.symm h2]
    · by_cases h2 : a = key
      · subst h2
        simp [dictInsert, dictGet, h1, Ne.symm h1]
      · simp [dictInsert, dictGet, h1, h2, ih]

theorem mem_dictInsert (m : List (Str × β)) (k : Str) (v : β)
    (p : Str × β) (hp : p ∈ dictInsert m k v) : p = (k, v) ∨ p ∈ m := by
  induction m with
  | nil =>
    simp [dictInsert] at hp
    exact Or.inl hp
  | cons q t ih =>
    obtain ⟨k', w⟩ := q
    by_cases h : k' = k
    · simp [dictInsert, h] at hp
      rcases hp with h1 | h1
      · exact Or.inl (by simp [h1])
      · exact Or.inr (List.mem_cons_of_mem _ h1)
    · simp [dictInsert, h] at hp
      rcases hp with h1 | h1
      · exact Or.inr (by simp [h1])
      · rcases ih h1 with h2 | h2
        · exact Or.inl h2
        · exact Or.inr (List.mem_cons_of_mem _ h2)

theorem length_dictInsert_present (m : List (Str × β)) (k : Str) (v w : β)
    (h : dictGet m k = some w) : (dictInsert m k v).length = m.length := by
  induction m with
  | nil => simp [dictGet] at h
  | cons q t ih =>
    obtain ⟨k', w'⟩ := q
    by_cases hk : k' = k
    · simp [dictInsert, hk]
    · simp [dictGet, hk] at h
      simp [dictInsert, hk, ih h]

theorem dictGet_mem (m : List (Str × β)) (k : Str) (v : β)
    (h : dictGet m k = some v) : (k, v) ∈ m := by
  induction m with
  | nil => simp [dictGet] at h
  | cons q t ih =>
    obtain ⟨k', w⟩ := q
    by_cases hk : k' = k
    · subst hk
      simp [dictGet] at h
      simp [h]
    · simp [dictGet, hk] at h
      exact List.mem_cons_of_mem _ (ih h)

theorem dictInsert_absent (m : List (Str × β)) (k : Str) (v : β)
    (h : dictGet m k = none) : dictInsert m k v = m ++ [(k, v)] := by
  induction m with
  | nil => simp [dictInsert]
  | cons q t ih =>
    obtain ⟨k', w⟩ := q
    by_cases hk : k' = k
    · simp [dictGet, hk] at h
    · simp [dictGet, hk] at h
      simp [dictInsert, hk, ih h]

theorem dictGet_append (m₁ m₂ : List (Str × β)) (k : Str) :
    dictGet (m₁ ++ m₂) k =
      match dictGet m₁ k with
      | some v => some v
      | none => dictGet m₂ k := by
  induction m₁ with
  | nil => simp [dictGet]
  | cons q t ih =>
    obtain ⟨k', w⟩ := q
    by_cases hk : k' = k <;> simp [dictGet, hk, ih]

theorem countP_dictInsert_present (m : List (Str × β)) (k : Str) (v w : β)
    (q : Str × β → Bool) (h : dictGet m k = some w) :
    (dictInsert m k v).countP q + (if q (k, w) then 1 else 0) =
      m.countP q + (if q (k, v) then 1 else 0) := by
  induction m with
  | nil => simp [dictGet] at h
  | cons p t ih =>
    obtain ⟨k', w'⟩ := p
    by_cases hk : k' = k
    · subst hk
      simp [dictGet] at h
      subst h
      simp [dictInsert, List.countP_cons]
      omega
    · simp [dictGet, hk] at h
      have := ih h
      simp [dictInsert, hk, List.countP_cons]
      omega

theorem countP_eq_zero_of_forall (m : List (Str × β)) (q : Str × β → Bool)
    (h : ∀ p ∈ m, q p = false) : m.countP q = 0 := by
  induction m with
  | nil => simp
  | cons p t ih =>
    have hp := h p (List.mem_cons_self p t)
    simp [List.countP_cons, hp, ih (fun x hx => h x (List.mem_cons_of_mem _ hx))]

theorem foldl_dictInsert_nodup (l : List (Str × β)) :
    ∀ m : List (Str × β), (l.map Prod.fst).Nodup →
      (∀ p ∈ l, dictGet m p.1 = none) →
      l.foldl (fun d p => dictInsert d p.1 p.2) m = m ++ l := by
  induction l with
  | nil => intro m _ _; simp
  | cons p t ih =>
    intro m hnd habs
    obtain ⟨k, v⟩ := p
    have h0 : dictGet m k = none := habs (k, v) (by simp)
    have hnd' : (t.map Prod.fst).Nodup := (List.nodup_cons.mp hnd).2
    have hk : k ∉ t.map Prod.fst := (List.nodup_cons.mp hnd).1
    have habs' : ∀ q ∈ t, dictGet (m ++ [(k, v)]) q.1 = none := by
      intro q hq
      rw [dictGet_append]
      rw [habs q (List.mem_cons_of_mem _ hq)]
      have hqk : ¬ (k = q.1) := by
        intro hEq
        have h2 : q.1 ∈ t.map Prod.fst := List.mem_map_of_mem Prod.fst hq
        rw [← hEq] at h2
        exact hk h2
      simp [dictGet, hqk]
    simp only [List.foldl_cons]
    rw [dictInsert_absent m k v h0]
    rw [ih (m ++ [(k, v)]) hnd' habs']
    simp

theorem dictGet_foldl_dictInsert (l : List (Str × β)) (key : Str) :
    ∀ m : List (Str × β),
      dictGet (l.foldl (fun d p => dictInsert d p.1 p.2) m) key =
        l.foldl (fun acc p => if p.1 = key then some p.2 else acc) (dictGet m key) := by
  induction l with
  | nil => intro m; simp
  | cons p t ih =>
    intro m
    obtain ⟨k, v⟩ := p
    simp only [List.foldl_cons]
    rw [ih]
    rw [dictGet_dictInsert]
    by_cases h : k = key
    · simp [h]
    · simp [h, Ne.symm h]

end Dict

namespace Semantic

/-- Record from `src/semantic.py`, class `BiasInstance`. -/
structure BiasInstance where
  rationale : Str
  bias_type : Str
  biased_phrase : Str
  affected_stakeholder : Str
deriving DecidableEq

/-- Record from `src/semantic.py`, class `BiasInstanceWithMetadata`. -/
structure BiasInstanceWithMetadata where
  bias_id : Nat
  bias_instance : BiasInstance
deriving DecidableEq

/-- Record from `src/semantic.py`, class `BiasPhraseMetadata`. -/
structure BiasPhraseMetadata where
  index : Nat
  occurrence_count : Nat
  bias_phrase : Str
  bias_instances : List Nat
deriving DecidableEq

/-- Loop state of `SemanticAnalyzer.analyze_content`: the accumulated
`bias_instances` list, the `bias_phrase_heatmap` dict and the `bias_index`
counter. -/
structure AnalyzerState where
  bias_instances : List BiasInstanceWithMetadata
  bias_phrase_heatmap : List (Str × BiasPhraseMetadata)
  bias_index : Nat
deriving DecidableEq

/-- Heatmap update of `analyze_content` (src/semantic.py lines 86-95): a
fresh bucket (count 1, this offset, this raw phrase, this id) is stored
under `key` whenever the key is new or the stored bucket's `index` differs
from this resolution; otherwise the stored bucket's count is incremented
and the id appended to its contribution list. -/
def updateHeatmap (hm : List (Str × BiasPhraseMetadata)) (key : Str)
    (content_index : Nat) (phrase : Str) (bid : Nat) :
    List (Str × BiasPhraseMetadata) :=
  match dictGet hm key with
  | none => dictInsert hm key ⟨content_index, 1, phrase, [bid]⟩
  | some meta =>
    if meta.index ≠ content_index then
      dictInsert hm key ⟨content_index, 1, phrase, [bid]⟩
    else
      dictInsert hm key
        { meta with occurrence_count := meta.occurrence_count + 1,
                    bias_instances := meta.bias_instances ++ [bid] }

/-- Body of the inner `for bias in analysis.detected_biases` loop of
`SemanticAnalyzer.analyze_content` (src/semantic.py lines 78-96): resolve
the phrase with `content.find`; discard the finding when absent; otherwise
record it under the next id and create or update the heatmap bucket keyed
by the lowercased phrase. -/
def processBias (content : Str) (st : AnalyzerState) (bias : BiasInstance) : AnalyzerState :=
  match strFind content bias.biased_phrase with
  | none => st
  | some content_index =>
    { bias_instances := st.bias_instances ++ [⟨st.bias_index, bias⟩],
      bias_phrase_heatmap :=
        updateHeatmap st.bias_phrase_heatmap (pyLower bias.biased_phrase)
          content_index bias.biased_phrase st.bias_index,
      bias_index := st.bias_index + 1 }

/-- Outer sampling loop of `analyze_content`, with `i` the current run
index and the second argument the number of runs left.  The oracle call
may fail (`Except.error`), which propagates and aborts the whole analysis
exactly as an uncaught Python exception would; a successful call processes
each returned finding in order. -/
def analyzeLoop (oracle : Nat → Except Unit (List BiasInstance)) (content : Str) :
    Nat → Nat → AnalyzerState → Except Unit AnalyzerState
  | _, 0, st => Except.ok st
  | i, n + 1, st =>
    match oracle i with
    | Except.error e => Except.error e
    | Except.ok biases =>
      analyzeLoop oracle content (i + 1) n (biases.foldl (processBias content) st)

/-- Model of `SemanticAnalyzer.analyze_content` (src/semantic.py lines
53-122): run the oracle `runs` times against `content` and return the
accumulated `(bias_instances, bias_phrase_heatmap)` pair.  The OpenAI
chat completion is the opaque oracle, indexed by the iteration number. -/
def analyze_content (oracle : Nat → Except Unit (List BiasInstance))
    (content : Str) (runs : Nat) :
    Except Unit (List BiasInstanceWithMetadata × List (Str × BiasPhraseMetadata)) :=
  (analyzeLoop oracle content 0 runs ⟨[], [], 0⟩).map
    (fun st => (st.bias_instances, st.bias_phrase_heatmap))

/-- Finding with only the phrase populated, used for concrete runs. -/
def mkBias (phrase : Str) : BiasInstance := ⟨[], [], phrase, []⟩

end Semantic

deriving instance DecidableEq for Except

namespace WikiParsing

/-- Default section name for content before the first header
(the Python literal is the string `Introduction`). -/
def introName : Str := ['I','n','t','r','o','d','u','c','t','i','o','n']

/-- Model of Python `paragraph.startswith('#')`. -/
def isHeader : Str → Bool
  | '#' :: _ => true
  | _ => false

/-- Model of Python `paragraph.lstrip('#').strip()`: the section name
derived from a header paragraph. -/
def headerName (p : Str) : Str := pyStrip (p.dropWhile (fun c => c == '#'))

/-- State of the paragraph loop of `ContentProcessor.chunk_content`,
parametric in the accumulator updated at each section flush so that the
same loop describes the sections dict and the ordered flush events. -/
structure SegState (σ : Type) where
  acc : σ
  current_section : Str
  current_content : List Str

/-- One iteration of the `for paragraph in paragraphs` loop of
`chunk_content` (src/utils/wiki_parsing.py lines 153-164): a header
paragraph first stores the accumulated body (when nonempty) under the
current section name and then becomes the current section; any other
paragraph is appended to the current body. -/
def segStep {σ : Type} (flush : σ → Str → List Str → σ)
    (st : SegState σ) (p : Str) : SegState σ :=
  if isHeader p then
    { acc := if st.current_content = [] then st.acc
             else flush st.acc st.current_section st.current_content,
      current_section := headerName p,
      current_content := [] }
  else
    { st with current_content := st.current_content ++ [p] }

/-- Final step of `chunk_content` after the paragraph loop: store the
last accumulated section when its body is nonempty. -/
def segFinish {σ : Type} (flush : σ → Str → List Str → σ) (st : SegState σ) : σ :=
  if st.current_content = [] then st.acc
  else flush st.acc st.current_section st.current_content

/-- Run the `chunk_content` paragraph loop over `text.split("\n\n")` and
store the final section when its body is nonempty. -/
def segRun {σ : Type} (flush : σ → Str → List Str → σ) (init : σ) (s : Str) : σ :=
  segFinish flush ((splitPP s).foldl (segStep flush) ⟨init, introName, []⟩)

/-- Model of `ContentProcessor.chunk_content` (src/utils/wiki_parsing.py
lines 144-170): the sections dict maps each section name to the
`"\n\n"`-join of its accumulated body paragraphs. -/
def chunk_content (s : Str) : List (Str × Str) :=
  segRun (fun m name body => dictInsert m name (joinPP body)) [] s

/-- Variant of `chunk_content` keeping each section body as the list of
accumulated paragraphs instead of joining them. -/
def chunkBlocks (s : Str) : List (Str × List Str) :=
  segRun (fun m name body => dictInsert m name body) [] s

/-- Ordered list of section flush events of the `chunk_content` loop:
each time a nonempty body is stored in the sections dict, the stored
`(name, paragraphs)` pair is appended here. -/
def segFlushes (s : Str) : List (Str × List Str) :=
  segRun (fun l name body => l ++ [(name, body)]) [] s

/-- Body of the latest flush carrying the given section name. -/
def lastFlushBody (s : Str) (name : Str) : Option (List Str) :=
  (segFlushes s).foldl (fun acc f => if f.1 = name then some f.2 else acc) none

end WikiParsing

namespace Main

/-- Record from `src/main.py`, class `SuggestedCorrection`. -/
structure SuggestedCorrection where
  rationale : Str
  text_added : Str
  text_removed : Str
deriving DecidableEq

/-- Record from `src/main.py`, class `BiasInstance` (the edit-carrying
variant, distinct from the one in `src/semantic.py`). -/
structure BiasInstance where
  rationale : Str
  bias_type : Str
  affected_stakeholder : Str
  bias_example : Str
  suggested_correction : SuggestedCorrection
deriving DecidableEq

/-- Record from `src/main.py`, class `PassageAnalysis`. -/
structure PassageAnalysis where
  stakeholders : List Str
  bias_instance : List BiasInstance
  executive_summary : Str
deriving DecidableEq

/-- Record from `src/main.py`, class `FinalContent`. -/
structure FinalContent where
  final_content : Str
deriving DecidableEq

/-- Model of `Investigator.create_final_content` (src/main.py lines
146-187): the method embeds the passage analysis and the content in a
prompt and returns whatever the chat-completion oracle parses as a
`FinalContent`.  No computation is performed on the content itself: no
span resolution, no overlap check, and no failure-and-return-original
path exists in the method. -/
def create_final_content (llm : PassageAnalysis → Str → FinalContent)
    (passage_analysis : PassageAnalysis) (content : Str) : FinalContent :=
  llm passage_analysis content

end Main

namespace WikiParsing

theorem map_dictInsert {β γ : Type} (h : β → γ) (m : List (Str × β)) (k : Str) (v : β) :
    (dictInsert m k v).map (fun p => (p.1, h p.2)) =
      dictInsert (m.map (fun p => (p.1, h p.2))) k (h v) := by
  induction m with
  | nil => simp [dictInsert]
  | cons q t ih =>
    obtain ⟨a, w⟩ := q
    by_cases hk : a = k <;> simp [dictInsert, hk, ih]

theorem dictGet_map {β γ : Type} (h : β → γ) (m : List (Str × β)) (k : Str) :
    dictGet (m.map (fun p => (p.1, h p.2))) k = (dictGet m k).map h := by
  induction m with
  | nil => simp [dictGet]
  | cons q t ih =>
    obtain ⟨a, w⟩ := q
    by_cases hk : a = k <;> simp [dictGet, hk, ih]

theorem foldl_segStep_hom {σ τ : Type} (f : σ → Str → List Str → σ)
    (g : τ → Str → List Str → τ) (h : σ → τ)
    (hfg : ∀ a name body, h (f a name body) = g (h a) name body) :
    ∀ (ps : List Str) (st : SegState σ),
      ps.foldl (segStep g) ⟨h st.acc, st.current_section, st.current_content⟩ =
        ⟨h (ps.foldl (segStep f) st).acc,
         (ps.foldl (segStep f) st).current_section,
         (ps.foldl (segStep f) st).current_content⟩ := by
  intro ps
  induction ps with
  | nil => intro st; rfl
  | cons p t ih =>
    intro st
    simp only [List.foldl_cons]
    have hstep : segStep g ⟨h st.acc, st.current_section, st.current_content⟩ p =
        ⟨h (segStep f st p).acc, (segStep f st p).current_section,
         (segStep f st p).current_content⟩ := by
      unfold segStep
      cases hp : isHeader p
      · simp [hp]
      · by_cases hc : st.current_content = []
        · simp [hp, hc]
        · simp [hp, hc, hfg]
    rw [hstep, ih]

theorem segRun_hom {σ τ : Type} (f : σ → Str → List Str → σ)
    (g : τ → Str → List Str → τ) (h : σ → τ)
    (hfg : ∀ a name body, h (f a name body) = g (h a) name body)
    (init : σ) (s : Str) :
    h (segRun f init s) = segRun g (h init) s := by
  unfold segRun
  rw [foldl_segStep_hom f g h hfg (splitPP s) ⟨init, introName, []⟩]
  unfold segFinish
  by_cases hc : ((splitPP s).foldl (segStep f) ⟨init, introName, []⟩).current_content = []
  · simp [hc]
  · simp [hc, hfg]

theorem chunk_content_eq_chunkBlocks (s : Str) :
    chunk_content s = (chunkBlocks s).map (fun p => (p.1, joinPP p.2)) := by
  have h := segRun_hom (fun m name body => dictInsert m name body)
    (fun m name body => dictInsert m name (joinPP body))
    (fun m => m.map (fun p => (p.1, joinPP p.2)))
    (fun a name body => map_dictInsert joinPP a name body) [] s
  unfold chunk_content chunkBlocks
  exact h.symm

theorem chunkBlocks_eq_foldl_segFlushes (s : Str) :
    chunkBlocks s = (segFlushes s).foldl (fun d p => dictInsert d p.1 p.2) [] := by
  have hfg : ∀ (a : List (Str × List Str)) (name : Str) (body : List Str),
      (a ++ [(name, body)]).foldl (fun d p => dictInsert d p.1 p.2) [] =
        dictInsert (a.foldl (fun d p => dictInsert d p.1 p.2) []) name body := by
    intro a name body
    rw [List.foldl_append]
    rfl
  have h := segRun_hom (fun l name body => l ++ [(name, body)])
    (fun m name body => dictInsert m name body)
    (fun l => l.foldl (fun d p => dictInsert d p.1 p.2) [])
    hfg [] s
  unfold chunkBlocks segFlushes
  exact h.symm

theorem foldl_segStep_append_sum :
    ∀ (ps : List Str) (st : SegState (List (Str × List Str))),
      (((ps.foldl (segStep fun l name body => l ++ [(name, body)]) st).acc.map
          (fun p => p.2.length)).sum +
        (ps.foldl (segStep fun l name body => l ++ [(name, body)]) st).current_content.length) =
      ((st.acc.map (fun p => p.2.length)).sum + st.current_content.length +
        (ps.filter (fun p => !isHeader p)).length) := by
  intro ps
  induction ps with
  | nil => intro st; simp
  | cons p t ih =>
    intro st
    simp only [List.foldl_cons]
    rw [ih]
    cases hp : isHeader p
    · simp [segStep, hp, List.filter_cons]
      omega
    · by_cases hc : st.current_content = []
      · simp [segStep, hp, hc, List.filter_cons]
      · simp [segStep, hp, hc, List.filter_cons]

theorem segFinish_append_sum (st : SegState (List (Str × List Str))) :
    (((segFinish (fun l name body => l ++ [(name, body)]) st).map
        (fun p => p.2.length)).sum) =
      (st.acc.map (fun p => p.2.length)).sum + st.current_content.length := by
  unfold segFinish
  by_cases hc : st.current_content = []
  · simp [hc]
  · simp [hc]

theorem segFlushes_sum (s : Str) :
    ((segFlushes s).map (fun p => p.2.length)).sum =
      ((splitPP s).filter (fun p => !isHeader p)).length := by
  unfold segFlushes segRun
  rw [segFinish_append_sum]
  have h := foldl_segStep_append_sum (splitPP s) ⟨[], introName, []⟩
  simpa using h

end WikiParsing

/-- Document `"# A\n\nx\n\n# A\n\ny"`: two headers with the same
normalized name `A`, each followed by one body paragraph. -/
def docDup : Str := ['#',' ','A','\n','\n','x','\n','\n','#',' ','A','\n','\n','y']

/-- Document `"i\n\n# A\n\nx"`: leading content plus one header, all
flushed section names distinct. -/
def docOk : Str := ['i','\n','\n','#',' ','A','\n','\n','x']

/-- Claim C5, counterexample: segmenting the empty document does NOT
return an empty mapping; it returns the single-entry mapping sending the
default section name to the empty body, because Python
`"".split("\n\n")` is `[""]` and the empty-string paragraph is
accumulated as a body block. -/
theorem C5_counterexample :
    WikiParsing.chunk_content [] ≠ [] ∧
    WikiParsing.chunk_content [] = [(WikiParsing.introName, [])] := by
  constructor
  · decide
  · decide

/-- Claim C5, amended: segmenting the empty input document returns the
single-entry mapping `{"Introduction": ""}` (one section, empty body) and
does not raise an error. -/
theorem C5_amended_empty_input :
    WikiParsing.chunk_content [] = [(WikiParsing.introName, [])] := by decide

/-- Claim C6, counterexample: in the document `"# A\n\nx\n\n# A\n\ny"`
the input has two non-header blocks but the output carries only one body
block, because the second flush of section name `A` overwrites the first
and the block `x` is lost. -/
theorem C6_counterexample :
    ((WikiParsing.chunkBlocks docDup).map (fun p => p.2.length)).sum = 1 ∧
    ((splitPP docDup).filter (fun p => !WikiParsing.isHeader p)).length = 2 ∧
    WikiParsing.chunk_content docDup = [(['A'], ['y'])] := by
  refine ⟨by decide, by decide, by decide⟩

/-- Claim C6, amended: provided no two flushed sections share a name, the
total number of body blocks across all sections of the segmenter output
equals the number of non-header blocks of the input; and the output of
`chunk_content` is exactly the per-section join of those body blocks. -/
theorem C6_block_conservation (s : Str)
    (hnd : ((WikiParsing.segFlushes s).map Prod.fst).Nodup) :
    ((WikiParsing.chunkBlocks s).map (fun p => p.2.length)).sum =
      ((splitPP s).filter (fun p => !WikiParsing.isHeader p)).length ∧
    WikiParsing.chunk_content s =
      (WikiParsing.chunkBlocks s).map (fun p => (p.1, joinPP p.2)) := by
  constructor
  · rw [WikiParsing.chunkBlocks_eq_foldl_segFlushes]
    rw [foldl_dictInsert_nodup (WikiParsing.segFlushes s) [] hnd (by intro p hp; rfl)]
    rw [List.nil_append]
    exact WikiParsing.segFlushes_sum s
  · exact WikiParsing.chunk_content_eq_chunkBlocks s

/-- Claim C6, witness at the document `"i\n\n# A\n\nx"`. -/
theorem C6_block_conservation_witness :
    ((WikiParsing.segFlushes docOk).map Prod.fst).Nodup ∧
    (((WikiParsing.chunkBlocks docOk).map (fun p => p.2.length)).sum =
      ((splitPP docOk).filter (fun p => !WikiParsing.isHeader p)).length ∧
    WikiParsing.chunk_content docOk =
      (WikiParsing.chunkBlocks docOk).map (fun p => (p.1, joinPP p.2))) :=
  ⟨by decide, C6_block_conservation docOk (by decide)⟩

/-- Claim C7: when a section name is flushed at least twice (two header
blocks normalizing to the same name, each followed by body blocks), the
output of `chunk_content` stores under that name exactly the body
accumulated after the latest such header — the later body replaces the
earlier one, it is not merged with it. -/
theorem C7_last_write_wins (s name : Str)
    (_htwo : 2 ≤ ((WikiParsing.segFlushes s).filter (fun f => f.1 = name)).length) :
    dictGet (WikiParsing.chunk_content s) name =
      (WikiParsing.lastFlushBody s name).map joinPP := by
  rw [WikiParsing.chunk_content_eq_chunkBlocks]
  rw [WikiParsing.dictGet_map]
  rw [WikiParsing.chunkBlocks_eq_foldl_segFlushes]
  rw [dictGet_foldl_dictInsert]
  rfl

/-- Claim C7, witness at the document `"# A\n\nx\n\n# A\n\ny"` and
section name `A`: the stored body is `y`, the later flush. -/
theorem C7_last_write_wins_witness :
    2 ≤ ((WikiParsing.segFlushes docDup).filter (fun f => f.1 = ['A'])).length ∧
    dictGet (WikiParsing.chunk_content docDup) ['A'] =
      (WikiParsing.lastFlushBody docDup ['A']).map joinPP :=
  ⟨by decide, C7_last_write_wins docDup ['A'] (by decide)⟩

namespace Semantic

theorem processBias_absent (content : Str) (st : AnalyzerState) (b : BiasInstance)
    (hf : strFind content b.biased_phrase = none) :
    processBias content st b = st := by
  unfold processBias
  rw [hf]

theorem processBias_found (content : Str) (st : AnalyzerState) (b : BiasInstance)
    (idx : Nat) (hf : strFind content b.biased_phrase = some idx) :
    processBias content st b =
      { bias_instances := st.bias_instances ++ [⟨st.bias_index, b⟩],
        bias_phrase_heatmap :=
          updateHeatmap st.bias_phrase_heatmap (pyLower b.biased_phrase)
            idx b.biased_phrase st.bias_index,
        bias_index := st.bias_index + 1 } := by
  unfold processBias
  rw [hf]

theorem foldl_processBias_preserves (content : Str) (P : AnalyzerState → Prop)
    (hstep : ∀ st b, P st → P (processBias content st b)) :
    ∀ (bs : List BiasInstance) (st : AnalyzerState), P st →
      P (bs.foldl (processBias content) st) := by
  intro bs
  induction bs with
  | nil => intro st h; exact h
  | cons b t ih => intro st h; exact ih _ (hstep st b h)

theorem analyzeLoop_preserves (oracle : Nat → Except Unit (List BiasInstance))
    (content : Str) (P : AnalyzerState → Prop)
    (hstep : ∀ st b, P st → P (processBias content st b)) :
    ∀ (n i : Nat) (st st' : AnalyzerState), P st →
      analyzeLoop oracle content i n st = Except.ok st' → P st' := by
  intro n
  induction n with
  | zero =>
    intro i st st' hP h
    simp only [analyzeLoop] at h
    cases h
    exact hP
  | succ n ih =>
    intro i st st' hP h
    simp only [analyzeLoop] at h
    cases ho : oracle i with
    | error e => rw [ho] at h; cases h
    | ok biases =>
      rw [ho] at h
      exact ih (i + 1) _ st'
        (foldl_processBias_preserves content P hstep biases st hP) h

theorem analyze_content_preserves (oracle : Nat → Except Unit (List BiasInstance))
    (content : Str) (P : AnalyzerState → Prop)
    (hstep : ∀ st b, P st → P (processBias content st b))
    (hinit : P ⟨[], [], 0⟩)
    (runs : Nat) (inst : List BiasInstanceWithMetadata)
    (hm : List (Str × BiasPhraseMetadata))
    (h : analyze_content oracle content runs = Except.ok (inst, hm)) :
    ∃ st' : AnalyzerState, P st' ∧ st'.bias_instances = inst ∧ st'.bias_phrase_heatmap = hm := by
  unfold analyze_content at h
  cases hl : analyzeLoop oracle content 0 runs ⟨[], [], 0⟩ with
  | error e => rw [hl] at h; cases h
  | ok st' =>
    rw [hl] at h
    simp only [Except.map] at h
    cases h
    exact ⟨st', analyzeLoop_preserves oracle content P hstep runs 0 _ st' hinit hl,
      rfl, rfl⟩

/-- Invariant of the aggregation state: every bucket's count equals the
length of its contribution list, every id stored in a bucket is below the
running counter, and no id occurs in more than one bucket. -/
def SemInv (st : AnalyzerState) : Prop :=
  (∀ p ∈ st.bias_phrase_heatmap, p.2.occurrence_count = p.2.bias_instances.length) ∧
  (∀ p ∈ st.bias_phrase_heatmap, ∀ i ∈ p.2.bias_instances, i < st.bias_index) ∧
  (∀ id : Nat, st.bias_phrase_heatmap.countP
      (fun p => decide (id ∈ p.2.bias_instances)) ≤ 1)

theorem updateHeatmap_new (hm : List (Str × BiasPhraseMetadata)) (key : Str)
    (idx : Nat) (phrase : Str) (bid : Nat) (hg : dictGet hm key = none) :
    updateHeatmap hm key idx phrase bid =
      dictInsert hm key ⟨idx, 1, phrase, [bid]⟩ := by
  unfold updateHeatmap
  rw [hg]

theorem updateHeatmap_moved (hm : List (Str × BiasPhraseMetadata)) (key : Str)
    (idx : Nat) (phrase : Str) (bid : Nat) (meta : BiasPhraseMetadata)
    (hg : dictGet hm key = some meta) (hne : meta.index ≠ idx) :
    updateHeatmap hm key idx phrase bid =
      dictInsert hm key ⟨idx, 1, phrase, [bid]⟩ := by
  unfold updateHeatmap
  simp only [hg]
  rw [if_pos hne]

theorem updateHeatmap_joined (hm : List (Str × BiasPhraseMetadata)) (key : Str)
    (idx : Nat) (phrase : Str) (bid : Nat) (meta : BiasPhraseMetadata)
    (hg : dictGet hm key = some meta) (heq : meta.index = idx) :
    updateHeatmap hm key idx phrase bid =
      dictInsert hm key
        { meta with occurrence_count := meta.occurrence_count + 1,
                    bias_instances := meta.bias_instances ++ [bid] } := by
  unfold updateHeatmap
  simp only [hg]
  rw [if_neg (by simp [heq])]

theorem updateHeatmap_SemInv (hm : List (Str × BiasPhraseMetadata)) (key : Str)
    (idx : Nat) (phrase : Str) (bid : Nat)
    (h1 : ∀ p ∈ hm, p.2.occurrence_count = p.2.bias_instances.length)
    (h2 : ∀ p ∈ hm, ∀ i ∈ p.2.bias_instances, i < bid)
    (h3 : ∀ id : Nat, hm.countP (fun p => decide (id ∈ p.2.bias_instances)) ≤ 1) :
    (∀ p ∈ updateHeatmap hm key idx phrase bid,
        p.2.occurrence_count = p.2.bias_instances.length) ∧
    (∀ p ∈ updateHeatmap hm key idx phrase bid,
        ∀ i ∈ p.2.bias_instances, i < bid + 1) ∧
    (∀ id : Nat, (updateHeatmap hm key idx phrase bid).countP
        (fun p => decide (id ∈ p.2.bias_instances)) ≤ 1) := by
  have hzero : hm.countP (fun p => decide (bid ∈ p.2.bias_instances)) = 0 := by
    apply countP_eq_zero_of_forall
    intro p hp
    simp only [decide_eq_false_iff_not]
    intro hmem
    exact absurd (h2 p hp bid hmem) (lt_irrefl bid)
  have hmemNew : ∀ v : BiasPhraseMetadata,
      (∀ q ∈ hm, q.2.occurrence_count = q.2.bias_instances.length) →
      v.occurrence_count = v.bias_instances.length →
      (∀ i ∈ v.bias_instances, i < bid + 1) →
      (∀ p ∈ dictInsert hm key v, p.2.occurrence_count = p.2.bias_instances.length) ∧
      (∀ p ∈ dictInsert hm key v, ∀ i ∈ p.2.bias_instances, i < bid + 1) := by
    intro v hcnt hv hvb
    constructor
    · intro p hp
      rcases mem_dictInsert hm key v p hp with hpe | hpm
      · rw [hpe]; exact hv
      · exact hcnt p hpm
    · intro p hp i hi
      rcases mem_dictInsert hm key v p hp with hpe | hpm
      · rw [hpe] at hi; exact hvb i hi
      · exact Nat.lt_succ_of_lt (h2 p hpm i hi)
  cases hg : dictGet hm key with
  | none =>
    rw [updateHeatmap_new hm key idx phrase bid hg]
    have hins := dictInsert_absent hm key (⟨idx, 1, phrase, [bid]⟩ : BiasPhraseMetadata) hg
    refine ⟨(hmemNew _ h1 (by rfl) ?_).1, (hmemNew _ h1 (by rfl) ?_).2, ?_⟩
    · intro i hi; simp at hi; omega
    · intro i hi; simp at hi; omega
    · intro id
      rw [hins, List.countP_append]
      by_cases hid : id = bid
      · subst hid
        rw [hzero]
        simp [List.countP_cons]
      · have : (List.countP (fun p => decide (id ∈ p.2.bias_instances))
            [(key, (⟨idx, 1, phrase, [bid]⟩ : BiasPhraseMetadata))]) = 0 := by
          simp [List.countP_cons, hid]
        rw [this]
        simpa using h3 id
  | some meta =>
    by_cases hne : meta.index ≠ idx
    · rw [updateHeatmap_moved hm key idx phrase bid meta hg hne]
      refine ⟨(hmemNew _ h1 (by rfl) ?_).1, (hmemNew _ h1 (by rfl) ?_).2, ?_⟩
      · intro i hi; simp at hi; omega
      · intro i hi; simp at hi; omega
      · intro id
        have hcp := countP_dictInsert_present hm key
          (⟨idx, 1, phrase, [bid]⟩ : BiasPhraseMetadata) meta
          (fun p => decide (id ∈ p.2.bias_instances)) hg
        by_cases hid : id = bid
        · rw [hid] at hcp ⊢
          rw [hzero] at hcp
          have hmeta : (bid ∈ meta.bias_instances) = False := by
            simp only [eq_iff_iff, iff_false]
            intro hmem
            exact absurd (h2 (key, meta) (dictGet_mem hm key meta hg) bid hmem)
              (lt_irrefl bid)
          simp [hmeta] at hcp
          omega
        · have := h3 id
          simp [hid] at hcp
          omega
    · rw [updateHeatmap_joined hm key idx phrase bid meta hg (not_not.mp hne)]
      have hmetaMem : (key, meta) ∈ hm := dictGet_mem hm key meta hg
      have hcnt : meta.occurrence_count = meta.bias_instances.length :=
        h1 (key, meta) hmetaMem
      refine ⟨(hmemNew _ h1 ?_ ?_).1, (hmemNew _ h1 ?_ ?_).2, ?_⟩
      · simp [hcnt]
      · intro i hi
        simp at hi
        rcases hi with hi | hi
        · exact Nat.lt_succ_of_lt (h2 (key, meta) hmetaMem i hi)
        · omega
      · simp [hcnt]
      · intro i hi
        simp at hi
        rcases hi with hi | hi
        · exact Nat.lt_succ_of_lt (h2 (key, meta) hmetaMem i hi)
        · omega
      · intro id
        have hcp := countP_dictInsert_present hm key
          ({ meta with occurrence_count := meta.occurrence_count + 1,
                       bias_instances := meta.bias_instances ++ [bid] }) meta
          (fun p => decide (id ∈ p.2.bias_instances)) hg
        by_cases hid : id = bid
        · rw [hid] at hcp ⊢
          rw [hzero] at hcp
          have hmeta : (bid ∈ meta.bias_instances) = False := by
            simp only [eq_iff_iff, iff_false]
            intro hmem
            exact absurd (h2 (key, meta) hmetaMem bid hmem) (lt_irrefl bid)
          simp [hmeta] at hcp
          omega
        · have := h3 id
          simp [hid] at hcp
          omega

theorem processBias_SemInv (content : Str) (st : AnalyzerState) (b : BiasInstance)
    (h : SemInv st) : SemInv (processBias content st b) := by
  obtain ⟨h1, h2, h3⟩ := h
  cases hf : strFind content b.biased_phrase with
  | none => rw [processBias_absent content st b hf]; exact ⟨h1, h2, h3⟩
  | some idx =>
    rw [processBias_found content st b idx hf]
    exact updateHeatmap_SemInv st.bias_phrase_heatmap (pyLower b.biased_phrase)
      idx b.biased_phrase st.bias_index h1 h2 h3

end Semantic
namespace Semantic

theorem processBias_KeyInv (content : Str) (st : AnalyzerState) (b : BiasInstance)
    (h : ∀ p ∈ st.bias_phrase_heatmap, p.1 = pyLower p.2.bias_phrase) :
    ∀ p ∈ (processBias content st b).bias_phrase_heatmap,
      p.1 = pyLower p.2.bias_phrase := by
  cases hf : strFind content b.biased_phrase with
  | none => rw [processBias_absent content st b hf]; exact h
  | some idx =>
    rw [processBias_found content st b idx hf]
    intro p hp
    simp only [] at hp
    cases hg : dictGet st.bias_phrase_heatmap (pyLower b.biased_phrase) with
    | none =>
      rw [updateHeatmap_new _ _ _ _ _ hg] at hp
      rcases mem_dictInsert _ _ _ p hp with he | hm2
      · rw [he]
      · exact h p hm2
    | some meta =>
      by_cases hne : meta.index ≠ idx
      · rw [updateHeatmap_moved _ _ _ _ _ meta hg hne] at hp
        rcases mem_dictInsert _ _ _ p hp with he | hm2
        · rw [he]
        · exact h p hm2
      · rw [updateHeatmap_joined _ _ _ _ _ meta hg (not_not.mp hne)] at hp
        rcases mem_dictInsert _ _ _ p hp with he | hm2
        · rw [he]
          simpa using h (pyLower b.biased_phrase, meta) (dictGet_mem _ _ _ hg)
        · exact h p hm2

theorem processBias_IdsSeq (content : Str) (st : AnalyzerState) (b : BiasInstance)
    (h : st.bias_instances.map (fun x => x.bias_id) = List.range st.bias_index) :
    (processBias content st b).bias_instances.map (fun x => x.bias_id) =
      List.range (processBias content st b).bias_index := by
  cases hf : strFind content b.biased_phrase with
  | none => rw [processBias_absent content st b hf]; exact h
  | some idx =>
    rw [processBias_found content st b idx hf]
    simp [List.range_succ, h]

theorem analyzeLoop_error (oracle : Nat → Except Unit (List BiasInstance))
    (content : Str) :
    ∀ (n a i : Nat) (st : AnalyzerState) (e : Unit),
      i < n → oracle (a + i) = Except.error e →
      (∀ j, j < i → ∃ v, oracle (a + j) = Except.ok v) →
      analyzeLoop oracle content a n st = Except.error e := by
  intro n
  induction n with
  | zero => intro a i st e hi _ _; exact absurd hi (Nat.not_lt_zero i)
  | succ n ih =>
    intro a i st e hi he hok
    simp only [analyzeLoop]
    cases i with
    | zero =>
      rw [Nat.add_zero] at he
      rw [he]
    | succ i2 =>
      obtain ⟨v, hv⟩ := hok 0 (Nat.succ_pos i2)
      rw [Nat.add_zero] at hv
      rw [hv]
      apply ih (a + 1) i2 _ e (by omega)
      · have harith : a + 1 + i2 = a + (i2 + 1) := by omega
        rw [harith]
        exact he
      · intro j hj
        obtain ⟨w, hw⟩ := hok (j + 1) (by omega)
        refine ⟨w, ?_⟩
        have harith : a + 1 + j = a + (j + 1) := by omega
        rw [harith]
        exact hw

end Semantic

/-- Oracle and content for the concrete run refuting claim C1: two
findings with phrases `ab` and `AB` against the content `ab AB`.  Both
resolve; both normalize to the key `ab`, at offsets `0` and `3`. -/
def oracleC1 : Nat → Except Unit (List Semantic.BiasInstance) :=
  fun _ => Except.ok [Semantic.mkBias ['a','b'], Semantic.mkBias ['A','B']]

/-- Content `"ab AB"` for the C1 run. -/
def contentC1 : Str := ['a','b',' ','A','B']

/-- Claim C1, counterexample: after the run, the heatmap holds a SINGLE
bucket under the key `ab` — the fresh bucket for `AB` at offset 3 — and
the earlier bucket for `ab` at offset 0, with its count and its
contribution id 0, is gone.  The claim predicted both buckets coexisting
under the same normalized key. -/
theorem C1_counterexample :
    Semantic.analyze_content oracleC1 contentC1 1 =
      Except.ok ([⟨0, Semantic.mkBias ['a','b']⟩, ⟨1, Semantic.mkBias ['A','B']⟩],
        [(['a','b'], ⟨3, 1, ['A','B'], [1]⟩)]) := by decide

/-- Claim C1, amended: when a resolved finding's normalized key already
has a bucket recorded at a different offset, a fresh bucket (count 1,
this offset, this raw phrase, this id) REPLACES the existing bucket under
that key — the heatmap size does not grow and the old bucket's count and
contribution ids are discarded; buckets never coexist under one key. -/
theorem C1_bucket_replacement (content : Str) (st : Semantic.AnalyzerState)
    (b : Semantic.BiasInstance) (idx : Nat) (meta : Semantic.BiasPhraseMetadata)
    (hf : strFind content b.biased_phrase = some idx)
    (hg : dictGet st.bias_phrase_heatmap (pyLower b.biased_phrase) = some meta)
    (hne : meta.index ≠ idx) :
    dictGet (Semantic.processBias content st b).bias_phrase_heatmap
        (pyLower b.biased_phrase) =
      some ⟨idx, 1, b.biased_phrase, [st.bias_index]⟩ ∧
    (Semantic.processBias content st b).bias_phrase_heatmap.length =
      st.bias_phrase_heatmap.length := by
  rw [Semantic.processBias_found content st b idx hf]
  simp only []
  rw [Semantic.updateHeatmap_moved _ _ _ _ _ meta hg hne]
  constructor
  · rw [dictGet_dictInsert]
    simp
  · exact length_dictInsert_present _ _ _ meta hg

/-- State of the C1 run just before the second finding is processed:
one recorded finding and one bucket for key `ab` at offset 0. -/
def stC1 : Semantic.AnalyzerState :=
  ⟨[⟨0, Semantic.mkBias ['a','b']⟩], [(['a','b'], ⟨0, 1, ['a','b'], [0]⟩)], 1⟩

/-- Claim C1, witness for the amended theorem at the concrete mid-run
state of the `ab`/`AB` example. -/
theorem C1_bucket_replacement_witness :
    dictGet (Semantic.processBias contentC1 stC1
        (Semantic.mkBias ['A','B'])).bias_phrase_heatmap
        (pyLower (Semantic.mkBias ['A','B']).biased_phrase) =
      some ⟨3, 1, (Semantic.mkBias ['A','B']).biased_phrase, [stC1.bias_index]⟩ ∧
    (Semantic.processBias contentC1 stC1
        (Semantic.mkBias ['A','B'])).bias_phrase_heatmap.length =
      stC1.bias_phrase_heatmap.length :=
  C1_bucket_replacement contentC1 stC1 (Semantic.mkBias ['A','B']) 3
    ⟨0, 1, ['a','b'], [0]⟩ (by decide) (by decide) (by decide)

/-- Oracle and content for the run refuting claim C2: phrases `cd` and
`CD` against the content `cd CD`. -/
def oracleC2 : Nat → Except Unit (List Semantic.BiasInstance) :=
  fun _ => Except.ok [Semantic.mkBias ['c','d'], Semantic.mkBias ['C','D']]

/-- Content `"cd CD"` for the C2 run. -/
def contentC2 : Str := ['c','d',' ','C','D']

/-- Claim C2, counterexample: the run assigns ids 0 and 1, but the
returned heatmap holds a single bucket whose contribution list is `[1]`:
id 0 appears in NO bucket (its bucket was replaced), refuting the claim
that every assigned id appears in exactly one bucket. -/
theorem C2_counterexample :
    Semantic.analyze_content oracleC2 contentC2 1 =
      Except.ok ([⟨0, Semantic.mkBias ['c','d']⟩, ⟨1, Semantic.mkBias ['C','D']⟩],
        [(['c','d'], ⟨3, 1, ['C','D'], [1]⟩)]) ∧
    List.countP (fun p => decide (0 ∈ p.2.bias_instances))
      [((['c','d'] : Str), (⟨3, 1, ['C','D'], [1]⟩ : Semantic.BiasPhraseMetadata))] = 0 := by
  exact ⟨by decide, by decide⟩

/-- Claim C2, amended: in every aggregation run, every bucket's
occurrence_count equals the length of its contribution-id list, and every
id appears in the contribution list of AT MOST one bucket (an id assigned
during the run can appear in no bucket at all, when its bucket was later
replaced by a same-key finding at a different offset). -/
theorem C2_heatmap_invariants (oracle : Nat → Except Unit (List Semantic.BiasInstance))
    (content : Str) (runs : Nat) (inst : List Semantic.BiasInstanceWithMetadata)
    (hm : List (Str × Semantic.BiasPhraseMetadata))
    (h : Semantic.analyze_content oracle content runs = Except.ok (inst, hm)) :
    (∀ p ∈ hm, p.2.occurrence_count = p.2.bias_instances.length) ∧
    (∀ id : Nat, hm.countP (fun p => decide (id ∈ p.2.bias_instances)) ≤ 1) := by
  obtain ⟨st', hP, hinst, hhm⟩ := Semantic.analyze_content_preserves oracle content
    Semantic.SemInv (fun st b hP => Semantic.processBias_SemInv content st b hP)
    ⟨fun p hp => absurd hp (List.not_mem_nil p),
     fun p hp => absurd hp (List.not_mem_nil p),
     fun id => by simp⟩
    runs inst hm h
  obtain ⟨h1, h2, h3⟩ := hP
  rw [← hhm]
  exact ⟨h1, h3⟩

/-- Single bucket returned by the `cd`/`CD` run. -/
def bucketC2 : Str × Semantic.BiasPhraseMetadata := (['c','d'], ⟨3, 1, ['C','D'], [1]⟩)

/-- Claim C2, witness for the amended theorem at the `cd`/`CD` run,
instantiated at the single returned bucket and at id 1. -/
theorem C2_heatmap_invariants_witness :
    bucketC2.2.occurrence_count = bucketC2.2.bias_instances.length ∧
    List.countP (fun p => decide (1 ∈ p.2.bias_instances)) [bucketC2] ≤ 1 :=
  ⟨(C2_heatmap_invariants oracleC2 contentC2 1
      [⟨0, Semantic.mkBias ['c','d']⟩, ⟨1, Semantic.mkBias ['C','D']⟩]
      [bucketC2] (by decide)).1 bucketC2 (by decide),
   (C2_heatmap_invariants oracleC2 contentC2 1
      [⟨0, Semantic.mkBias ['c','d']⟩, ⟨1, Semantic.mkBias ['C','D']⟩]
      [bucketC2] (by decide)).2 1⟩

/-- Oracle and content for the run refuting claim C9: phrases `ab` and
`\x20ab` (leading space) against the content `\x20ab`. -/
def oracleC9 : Nat → Except Unit (List Semantic.BiasInstance) :=
  fun _ => Except.ok [Semantic.mkBias ['a','b'], Semantic.mkBias [' ','a','b']]

/-- Content `" ab"` for the C9 run. -/
def contentC9 : Str := [' ','a','b']

/-- Claim C9, counterexample: the raw phrases `ab` and `\x20ab` differ
only in leading whitespace, both resolve, yet they produce two DIFFERENT
heatmap keys (`ab` and `\x20ab`): normalization does not trim
whitespace, refuting case-folding-plus-trimming. -/
theorem C9_counterexample :
    Semantic.analyze_content oracleC9 contentC9 1 =
      Except.ok ([⟨0, Semantic.mkBias ['a','b']⟩, ⟨1, Semantic.mkBias [' ','a','b']⟩],
        [(['a','b'], ⟨1, 1, ['a','b'], [0]⟩),
         ([' ','a','b'], ⟨0, 1, [' ','a','b'], [1]⟩)]) ∧
    (['a','b'] : Str) ≠ [' ','a','b'] := by
  exact ⟨by decide, by decide⟩

/-- Claim C9, amended: the heatmap key of every bucket is the
character-wise lowercasing (`str.lower()`, no whitespace trimming) of the
bucket's canonical phrase; phrases differing only in letter case share a
key, but phrases differing in leading or trailing whitespace do not. -/
theorem C9_keys_are_lowercased (oracle : Nat → Except Unit (List Semantic.BiasInstance))
    (content : Str) (runs : Nat) (inst : List Semantic.BiasInstanceWithMetadata)
    (hm : List (Str × Semantic.BiasPhraseMetadata))
    (h : Semantic.analyze_content oracle content runs = Except.ok (inst, hm)) :
    ∀ p ∈ hm, p.1 = pyLower p.2.bias_phrase := by
  obtain ⟨st', hP, hinst, hhm⟩ := Semantic.analyze_content_preserves oracle content
    (fun st => ∀ p ∈ st.bias_phrase_heatmap, p.1 = pyLower p.2.bias_phrase)
    (fun st b hP => Semantic.processBias_KeyInv content st b hP)
    (fun p hp => absurd hp (List.not_mem_nil p))
    runs inst hm h
  rw [← hhm]
  exact hP

/-- First bucket returned by the `ab`/`\x20ab` run. -/
def bucketC9 : Str × Semantic.BiasPhraseMetadata := (['a','b'], ⟨1, 1, ['a','b'], [0]⟩)

/-- Claim C9, witness for the amended theorem at the `ab`/`\x20ab` run,
instantiated at the first returned bucket. -/
theorem C9_keys_are_lowercased_witness :
    bucketC9.1 = pyLower bucketC9.2.bias_phrase :=
  C9_keys_are_lowercased oracleC9 contentC9 1
    [⟨0, Semantic.mkBias ['a','b']⟩, ⟨1, Semantic.mkBias [' ','a','b']⟩]
    [bucketC9, ([' ','a','b'], ⟨0, 1, [' ','a','b'], [1]⟩)]
    (by decide) bucketC9 (by decide)

/-- Claim C10: in every aggregation run, the returned finding list
carries ids exactly 0, 1, 2, ... in order — the id counter is incremented
only when a finding resolves, so discarded ABSENT findings leave no
gaps. -/
theorem C10_ids_consecutive (oracle : Nat → Except Unit (List Semantic.BiasInstance))
    (content : Str) (runs : Nat) (inst : List Semantic.BiasInstanceWithMetadata)
    (hm : List (Str × Semantic.BiasPhraseMetadata))
    (h : Semantic.analyze_content oracle content runs = Except.ok (inst, hm)) :
    inst.map (fun x => x.bias_id) = List.range inst.length := by
  obtain ⟨st', hP, hinst, hhm⟩ := Semantic.analyze_content_preserves oracle content
    (fun st => st.bias_instances.map (fun x => x.bias_id) = List.range st.bias_index)
    (fun st b hP => Semantic.processBias_IdsSeq content st b hP)
    (by simp)
    runs inst hm h
  rw [hinst] at hP
  have hlen : inst.length = st'.bias_index := by
    have h2 := congrArg List.length hP
    simpa using h2
  rw [hP, hlen]

/-- Oracle for the C10 witness: a resolving finding, an absent one, then
a resolving one, so that the absent finding is dropped without consuming
an id. -/
def oracleC10 : Nat → Except Unit (List Semantic.BiasInstance) :=
  fun _ => Except.ok [Semantic.mkBias ['a'], Semantic.mkBias ['z'], Semantic.mkBias ['a']]

/-- Claim C10, witness: with one resolving, one absent and one resolving
finding over content `a`, the returned ids are `[0, 1]` = `range 2`. -/
theorem C10_ids_consecutive_witness :
    ([⟨0, Semantic.mkBias ['a']⟩, ⟨1, Semantic.mkBias ['a']⟩]
        : List Semantic.BiasInstanceWithMetadata).map (fun x => x.bias_id) =
      List.range ([⟨0, Semantic.mkBias ['a']⟩, ⟨1, Semantic.mkBias ['a']⟩]
        : List Semantic.BiasInstanceWithMetadata).length :=
  C10_ids_consecutive oracleC10 ['a'] 1
    [⟨0, Semantic.mkBias ['a']⟩, ⟨1, Semantic.mkBias ['a']⟩]
    [(['a'], ⟨0, 2, ['a'], [0, 1]⟩)] (by decide)

/-- Oracle for the C8 counterexample: the first sample fails, the second
would return a finding. -/
def oracleC8 : Nat → Except Unit (List Semantic.BiasInstance) :=
  fun i => if i = 0 then Except.error () else Except.ok [Semantic.mkBias ['g']]

/-- Claim C8, counterexample: with the first of two samples failing, the
whole aggregation returns the error — it does NOT continue with the
remaining sample and does NOT return an aggregate built from it (which
would have been one bucket for `g`). -/
theorem C8_counterexample :
    Semantic.analyze_content oracleC8 ['g'] 2 = Except.error () := by decide

/-- Claim C8, amended: an oracle invocation that fails is not retried,
and aggregation does NOT continue: the uncaught exception propagates, the
whole run fails with that error, and no aggregate built from the
successful samples is returned. -/
theorem C8_failure_aborts (oracle : Nat → Except Unit (List Semantic.BiasInstance))
    (content : Str) (runs i : Nat) (e : Unit)
    (hi : i < runs) (he : oracle i = Except.error e)
    (hok : ∀ j, j < i → ∃ v, oracle j = Except.ok v) :
    Semantic.analyze_content oracle content runs = Except.error e := by
  unfold Semantic.analyze_content
  rw [Semantic.analyzeLoop_error oracle content runs 0 i ⟨[], [], 0⟩ e hi
    (by simpa using he) (by intro j hj; simpa using hok j hj)]
  rfl

/-- Oracle for the C8 witness: the first sample succeeds, the second
fails. -/
def oracleC8w : Nat → Except Unit (List Semantic.BiasInstance) :=
  fun i => if i = 0 then Except.ok [Semantic.mkBias ['g']] else Except.error ()

/-- Claim C8, witness: two samples, the second fails; the whole
aggregation returns the error. -/
theorem C8_failure_aborts_witness :
    (1 : Nat) < 2 ∧ oracleC8w 1 = Except.error () ∧
    Semantic.analyze_content oracleC8w ['g'] 2 = Except.error () :=
  ⟨by decide, by decide,
    C8_failure_aborts oracleC8w ['g'] 2 1 () (by decide) (by decide)
      (fun j hj => ⟨[Semantic.mkBias ['g']], by
        have hj0 : j = 0 := by omega
        rw [hj0]
        rfl⟩)⟩

namespace Semantic

theorem foldl_processBias_fresh (content : Str) :
    ∀ (bs : List BiasInstance) (st : AnalyzerState),
      (∀ p ∈ st.bias_phrase_heatmap, p.2.occurrence_count = 1) →
      (∀ b ∈ bs, dictGet st.bias_phrase_heatmap (pyLower b.biased_phrase) = none) →
      (bs.map (fun b => pyLower b.biased_phrase)).Nodup →
      ∀ p ∈ (bs.foldl (processBias content) st).bias_phrase_heatmap,
        p.2.occurrence_count = 1 := by
  intro bs
  induction bs with
  | nil => intro st h1 _ _ p hp; exact h1 p hp
  | cons b t ih =>
    intro st h1 habs hnd
    have hnd1 : pyLower b.biased_phrase ∉ t.map (fun x => pyLower x.biased_phrase) :=
      (List.nodup_cons.mp hnd).1
    have hnd2 : (t.map (fun x => pyLower x.biased_phrase)).Nodup :=
      (List.nodup_cons.mp hnd).2
    simp only [List.foldl_cons]
    cases hf : strFind content b.biased_phrase with
    | none =>
      rw [processBias_absent content st b hf]
      exact ih st h1 (fun b2 hb2 => habs b2 (List.mem_cons_of_mem _ hb2)) hnd2
    | some idx =>
      rw [processBias_found content st b idx hf]
      have hb : dictGet st.bias_phrase_heatmap (pyLower b.biased_phrase) = none :=
        habs b (by simp)
      rw [updateHeatmap_new _ _ _ _ _ hb]
      apply ih
      · intro p hp
        rcases mem_dictInsert _ _ _ p hp with he | hm2
        · rw [he]
        · exact h1 p hm2
      · intro b2 hb2
        rw [dictGet_dictInsert]
        have hne : pyLower b2.biased_phrase ≠ pyLower b.biased_phrase := by
          intro hEq
          apply hnd1
          rw [← hEq]
          exact List.mem_map_of_mem _ hb2
        rw [if_neg hne]
        exact habs b2 (List.mem_cons_of_mem _ hb2)
      · exact hnd2

theorem processBias_same_state (content : Str) (f : BiasInstance) (idx k : Nat)
    (hf : strFind content f.biased_phrase = some idx) :
    processBias content
      ⟨(List.range k).map (fun i => ⟨i, f⟩),
       [(pyLower f.biased_phrase, ⟨idx, k, f.biased_phrase, List.range k⟩)], k⟩ f =
    ⟨(List.range (k + 1)).map (fun i => ⟨i, f⟩),
     [(pyLower f.biased_phrase, ⟨idx, k + 1, f.biased_phrase, List.range (k + 1)⟩)],
     k + 1⟩ := by
  rw [processBias_found content _ f idx hf]
  have hget : dictGet [(pyLower f.biased_phrase,
      (⟨idx, k, f.biased_phrase, List.range k⟩ : BiasPhraseMetadata))]
      (pyLower f.biased_phrase) = some ⟨idx, k, f.biased_phrase, List.range k⟩ := by
    simp [dictGet]
  rw [updateHeatmap_joined _ _ _ _ _ _ hget rfl]
  simp [dictInsert, List.range_succ]

theorem processBias_first_state (content : Str) (f : BiasInstance) (idx : Nat)
    (hf : strFind content f.biased_phrase = some idx) :
    processBias content ⟨[], [], 0⟩ f =
      ⟨(List.range 1).map (fun i => ⟨i, f⟩),
       [(pyLower f.biased_phrase, ⟨idx, 1, f.biased_phrase, List.range 1⟩)], 1⟩ := by
  rw [processBias_found content _ f idx hf]
  rw [updateHeatmap_new _ _ _ _ _ (by rfl)]
  have hr1 : List.range 1 = [0] := rfl
  simp [dictInsert, hr1]

theorem analyzeLoop_same (oracle : Nat → Except Unit (List BiasInstance))
    (content : Str) (f : BiasInstance) (idx : Nat)
    (hf : strFind content f.biased_phrase = some idx) :
    ∀ (n a k : Nat),
      (∀ j, a ≤ j → j < a + n → oracle j = Except.ok [f]) →
      analyzeLoop oracle content a n
        ⟨(List.range k).map (fun i => ⟨i, f⟩),
         [(pyLower f.biased_phrase, ⟨idx, k, f.biased_phrase, List.range k⟩)], k⟩ =
      Except.ok
        ⟨(List.range (k + n)).map (fun i => ⟨i, f⟩),
         [(pyLower f.biased_phrase, ⟨idx, k + n, f.biased_phrase, List.range (k + n)⟩)],
         k + n⟩ := by
  intro n
  induction n with
  | zero =>
    intro a k _
    simp only [analyzeLoop, Nat.add_zero]
  | succ n ih =>
    intro a k hor
    simp only [analyzeLoop]
    rw [hor a (le_refl a) (by omega)]
    simp only [List.foldl_cons, List.foldl_nil]
    rw [processBias_same_state content f idx k hf]
    have happ := ih (a + 1) (k + 1) (fun j h1 h2 => hor j (by omega) (by omega))
    have harith : k + 1 + n = k + (n + 1) := by omega
    rw [harith] at happ
    exact happ

end Semantic

/-- Oracle and content for the run refuting the first half of claim C4:
a single sample that reports the same finding `ef` twice. -/
def oracleC4 : Nat → Except Unit (List Semantic.BiasInstance) :=
  fun _ => Except.ok [Semantic.mkBias ['e','f'], Semantic.mkBias ['e','f']]

/-- Content `"ef"` for the C4 run. -/
def contentC4 : Str := ['e','f']

/-- Claim C4, counterexample: with `sample_count = 1` but a sample that
reports the identical finding twice, the single bucket has
occurrence_count 2, not 1 — the first half of the claim fails as stated
for arbitrary oracles. -/
theorem C4_counterexample :
    Semantic.analyze_content oracleC4 contentC4 1 =
      Except.ok ([⟨0, Semantic.mkBias ['e','f']⟩, ⟨1, Semantic.mkBias ['e','f']⟩],
        [(['e','f'], ⟨0, 2, ['e','f'], [0, 1]⟩)]) := by decide

/-- Claim C4, amended: (1) with `sample_count = 1`, every bucket of the
returned heatmap has occurrence_count 1 PROVIDED the sample's findings
have pairwise distinct normalized phrases; (2) with `sample_count = runs`
(at least 1) and every sample returning the identical single finding
resolving at offset `idx`, the result is exactly one bucket with
occurrence_count `runs`, contributed by ids `0..runs-1`. -/
theorem C4_dedup :
    (∀ (oracle : Nat → Except Unit (List Semantic.BiasInstance)) (content : Str)
        (bs : List Semantic.BiasInstance) (inst : List Semantic.BiasInstanceWithMetadata)
        (hm : List (Str × Semantic.BiasPhraseMetadata)),
      oracle 0 = Except.ok bs →
      (bs.map (fun b => pyLower b.biased_phrase)).Nodup →
      Semantic.analyze_content oracle content 1 = Except.ok (inst, hm) →
      ∀ p ∈ hm, p.2.occurrence_count = 1) ∧
    (∀ (oracle : Nat → Except Unit (List Semantic.BiasInstance)) (content : Str)
        (f : Semantic.BiasInstance) (idx runs : Nat),
      (∀ i, i < runs → oracle i = Except.ok [f]) →
      strFind content f.biased_phrase = some idx →
      1 ≤ runs →
      Semantic.analyze_content oracle content runs =
        Except.ok ((List.range runs).map (fun i => ⟨i, f⟩),
          [(pyLower f.biased_phrase, ⟨idx, runs, f.biased_phrase, List.range runs⟩)])) := by
  constructor
  · intro oracle content bs inst hm ho hnd h
    unfold Semantic.analyze_content at h
    simp only [Semantic.analyzeLoop, ho, Except.map] at h
    rw [Except.ok.injEq, Prod.mk.injEq] at h
    rw [← h.2]
    exact Semantic.foldl_processBias_fresh content bs ⟨[], [], 0⟩
      (fun p hp => absurd hp (List.not_mem_nil p))
      (fun b _ => by rfl) hnd
  · intro oracle content f idx runs hor hf hruns
    cases runs with
    | zero => exact absurd hruns (by omega)
    | succ n =>
      unfold Semantic.analyze_content
      simp only [Semantic.analyzeLoop, hor 0 (Nat.succ_pos n), Nat.zero_add,
        List.foldl_cons, List.foldl_nil]
      rw [Semantic.processBias_first_state content f idx hf]
      have hloop := Semantic.analyzeLoop_same oracle content f idx hf n 1 1
        (fun j h1 h2 => hor j (by omega))
      have harith : 1 + n = n + 1 := Nat.add_comm 1 n
      rw [harith] at hloop
      rw [hloop]
      rfl

/-- First bucket returned by the two-distinct-phrase C4 witness run. -/
def bucketC4w : Str × Semantic.BiasPhraseMetadata := (['a','b'], ⟨0, 1, ['a','b'], [0]⟩)

/-- Claim C4, witness: the first half at a two-distinct-phrase sample
(`ab` and `cd` in content `ab cd`), the second half at three identical
samples of `ab`. -/
theorem C4_dedup_witness :
    bucketC4w.2.occurrence_count = 1 ∧
    Semantic.analyze_content (fun _ => Except.ok [Semantic.mkBias ['a','b']])
        ['a','b'] 3 =
      Except.ok ((List.range 3).map (fun i => ⟨i, Semantic.mkBias ['a','b']⟩),
        [(pyLower (Semantic.mkBias ['a','b']).biased_phrase,
          ⟨0, 3, (Semantic.mkBias ['a','b']).biased_phrase, List.range 3⟩)]) :=
  ⟨C4_dedup.1 (fun _ => Except.ok [Semantic.mkBias ['a','b'], Semantic.mkBias ['c','d']])
      ['a','b',' ','c','d']
      [Semantic.mkBias ['a','b'], Semantic.mkBias ['c','d']]
      [⟨0, Semantic.mkBias ['a','b']⟩, ⟨1, Semantic.mkBias ['c','d']⟩]
      [bucketC4w, (['c','d'], ⟨3, 1, ['c','d'], [1]⟩)]
      (by decide) (by decide) (by decide) bucketC4w (by decide),
   C4_dedup.2 (fun _ => Except.ok [Semantic.mkBias ['a','b']]) ['a','b']
      (Semantic.mkBias ['a','b']) 0 3
      (fun i _ => rfl) (by decide) (by decide)⟩

/-- Edit with only the removed and added text populated, used for
concrete edit batches. -/
def mkEdit (removed added : Str) : Main.BiasInstance :=
  ⟨[], [], [], [], ⟨[], added, removed⟩⟩

/-- Correction oracle for the C3 run: returns the fixed text `xy`
whatever the analysis and content are. -/
def llmC3 : Main.PassageAnalysis → Str → Main.FinalContent :=
  fun _ _ => ⟨['x','y']⟩

/-- Passage analysis for the C3 run: two edits whose removed spans in the
content `ab` overlap (`ab` at offset 0 spanning 0..2 and `b` at offset 1
spanning 1..2). -/
def paC3 : Main.PassageAnalysis :=
  ⟨[], [mkEdit ['a','b'] ['u'], mkEdit ['b'] ['v']], []⟩

/-- Claim C3, counterexample: the edit batch has two edits with
overlapping resolved spans (0..2 and 1..2 in `ab`), yet
`create_final_content` does not fail and does not return the original
document — it returns the oracle's output `xy`. -/
theorem C3_counterexample :
    strFind ['a','b'] (mkEdit ['a','b'] ['u']).suggested_correction.text_removed =
      some 0 ∧
    strFind ['a','b'] (mkEdit ['b'] ['v']).suggested_correction.text_removed =
      some 1 ∧
    (1 : Nat) < 0 + 2 ∧ (0 : Nat) < 1 + 1 ∧
    Main.create_final_content llmC3 paC3 ['a','b'] = ⟨['x','y']⟩ ∧
    (⟨['x','y']⟩ : Main.FinalContent) ≠ ⟨['a','b']⟩ := by
  exact ⟨by decide, by decide, by decide, by decide, by decide, by decide⟩

/-- Claim C3, amended: the final-content step performs no overlap
detection and has no failure path: even when two edits of the batch have
overlapping resolved spans in the original document, it returns exactly
what the correction oracle produces, with no rejection and no restoring
of the original document. -/
theorem C3_no_overlap_rejection (llm : Main.PassageAnalysis → Str → Main.FinalContent)
    (pa : Main.PassageAnalysis) (content : Str)
    (e1 e2 : Main.BiasInstance) (s1 s2 : Nat)
    (_h1 : e1 ∈ pa.bias_instance) (_h2 : e2 ∈ pa.bias_instance)
    (_hr1 : strFind content e1.suggested_correction.text_removed = some s1)
    (_hr2 : strFind content e2.suggested_correction.text_removed = some s2)
    (_hov1 : s2 < s1 + e1.suggested_correction.text_removed.length)
    (_hov2 : s1 < s2 + e2.suggested_correction.text_removed.length) :
    Main.create_final_content llm pa content = llm pa content := rfl

/-- Claim C3, witness for the amended theorem at the overlapping batch of
`paC3` over the content `ab`. -/
theorem C3_no_overlap_rejection_witness :
    mkEdit ['a','b'] ['u'] ∈ paC3.bias_instance ∧
    mkEdit ['b'] ['v'] ∈ paC3.bias_instance ∧
    Main.create_final_content llmC3 paC3 ['a','b'] = llmC3 paC3 ['a','b'] :=
  ⟨by decide, by decide,
   C3_no_overlap_rejection llmC3 paC3 ['a','b']
     (mkEdit ['a','b'] ['u']) (mkEdit ['b'] ['v']) 0 1
     (by decide) (by decide) (by decide) (by decide) (by decide) (by decide)⟩
